import Mathlib

/-!
Shallow embedding and verification of the `goit-algo-hw-03` repository:
a Towers of Hanoi solver (`src/utils/hanoi_towers.py`), a Koch snowflake
generator (`src/utils/koch_snowflake.py`) and an extension-bucketed file
copier (`src/utils/file_copier.py`).

Conventions of the embedding:
* Python's mutable `dict[str, list[int]]` tower state becomes an explicit
  `Towers` record threaded through the functions; a `raise` becomes an
  `Except.error` result (so a failing call returns no successor state,
  matching the fact that the Python checks precede every mutation).
* Python `print` side effects become an explicit list of `OutEvent`s so
  that trace-related properties can be stated.
* The unbounded recursion of `hanoi_recursive` (its `n` parameter is an
  arbitrary Python `int` and the code recurses on `n - 1` without a
  guard) is embedded with an explicit fuel parameter; running out of fuel
  models Python's `RecursionError`.
* Python floats in the Koch generator are modelled by exact rationals;
  turtle calls become an explicit list of graphics operations.
-/

namespace Hanoi

/-- The three tower names `'A'`, `'B'`, `'C'`. -/
inductive Peg where
  | A
  | B
  | C
  deriving DecidableEq, Repr, Fintype

/-- State of the three towers; each list is bottom-to-top, so the last
element is the top disk (Python `towers[peg][-1]`). -/
structure Towers where
  A : List Int
  B : List Int
  C : List Int
  deriving DecidableEq, Repr

/-- Read the list stored at a peg (`towers[peg]`). -/
def Towers.peg : Towers → Peg → List Int
  | t, .A => t.A
  | t, .B => t.B
  | t, .C => t.C

/-- Replace the list stored at a peg (`towers[peg] = l`). -/
def Towers.setPeg : Towers → Peg → List Int → Towers
  | t, .A, l => { t with A := l }
  | t, .B, l => { t with B := l }
  | t, .C, l => { t with C := l }

/-- Errors of the Hanoi module: `invalidInput` is the `ValueError` raised
on `n < 1`, `moveError` the `ValueError`s of `move_disk`, and
`recursionLimit` models Python's `RecursionError` (fuel exhaustion). -/
inductive MoveError where
  | emptySource (source : Peg)
  | sizeViolation (disk top : Int)
  deriving DecidableEq, Repr

inductive HanoiError where
  | invalidInput (msg : String)
  | moveError (e : MoveError)
  | recursionLimit
  deriving DecidableEq, Repr

/-- Events printed to stdout: `moveMsg s d disk` models
`print(f"Move disk from {s} to {d}: {disk}")` and `stateMsg msg t`
models `print_tower_state(t, msg)`. -/
inductive OutEvent where
  | moveMsg (source destination : Peg) (disk : Int)
  | stateMsg (msg : String) (towers : Towers)
  deriving DecidableEq, Repr

/-- A single recorded call of `move_disk` during the run. -/
structure Move where
  source : Peg
  destination : Peg
  disk : Int
  deriving DecidableEq, Repr

/-- Model of `list(range(n, 0, -1))` for a natural bound: `[n, n-1, ..., 1]`. -/
def rangeDown : Nat → List Int
  | 0 => []
  | k + 1 => ((k + 1 : Nat) : Int) :: rangeDown k

/-- Embedding of `initialize_towers`: `n` disks on tower `A`, raising on `n < 1`. -/
def initialize_towers (n : Int) : Except HanoiError Towers :=
  if n < 1 then Except.error (HanoiError.invalidInput "Number of disks must be at least 1")
  else Except.ok ⟨rangeDown n.toNat, [], []⟩

/-- Embedding of `move_disk`: check the source stack, check the destination top, then
pop the source and push onto the destination, returning the moved disk. -/
def move_disk (towers : Towers) (source destination : Peg) :
    Except MoveError (Int × Towers) :=
  match (towers.peg source).getLast? with
  | none => Except.error (MoveError.emptySource source)
  | some disk =>
    let doMove : Except MoveError (Int × Towers) :=
      let t1 := towers.setPeg source (towers.peg source).dropLast
      Except.ok (disk, t1.setPeg destination (t1.peg destination ++ [disk]))
    match (towers.peg destination).getLast? with
    | some dtop => if dtop < disk then Except.error (MoveError.sizeViolation disk dtop) else doMove
    | none => doMove

/-- Embedding of `hanoi_recursive(n, source, destination, auxiliary, towers, show_steps)`.
The result collects the printed trace, the sequence of `move_disk` calls
performed, and the final tower state. -/
def hanoi_recursive : Nat → Int → Peg → Peg → Peg → Towers → Bool →
    Except HanoiError (List OutEvent × List Move × Towers)
  | 0, _, _, _, _, _, _ => Except.error HanoiError.recursionLimit
  | fuel + 1, n, source, destination, auxiliary, towers, show_steps =>
    if n = 1 then
      match move_disk towers source destination with
      | Except.error e => Except.error (HanoiError.moveError e)
      | Except.ok (disk, t1) =>
        Except.ok ((if show_steps then
            [OutEvent.moveMsg source destination disk,
             OutEvent.stateMsg "Intermediate state:" t1] else []),
          [⟨source, destination, disk⟩], t1)
    else
      match hanoi_recursive fuel (n - 1) source auxiliary destination towers show_steps with
      | Except.error e => Except.error e
      | Except.ok (tr1, ms1, t1) =>
        match move_disk t1 source destination with
        | Except.error e => Except.error (HanoiError.moveError e)
        | Except.ok (disk, t2) =>
          match hanoi_recursive fuel (n - 1) auxiliary destination source t2 show_steps with
          | Except.error e => Except.error e
          | Except.ok (tr3, ms3, t3) =>
            Except.ok (tr1 ++ (if show_steps then
                [OutEvent.moveMsg source destination disk,
                 OutEvent.stateMsg "Intermediate state:" t2] else []) ++ tr3,
              ms1 ++ ⟨source, destination, disk⟩ :: ms3, t3)

/-- Embedding of `solve_hanoi`: validate `n`, initialize, run the recursion from
`A` to `C` via `B`, and surround the trace with the initial and final
state printouts. -/
def solve_hanoi (fuel : Nat) (n : Int) (show_steps : Bool) :
    Except HanoiError (List OutEvent × List Move × Towers) :=
  if n < 1 then Except.error (HanoiError.invalidInput "Number of disks must be at least 1")
  else
    match initialize_towers n with
    | Except.error e => Except.error e
    | Except.ok towers =>
      match hanoi_recursive fuel n Peg.A Peg.C Peg.B towers show_steps with
      | Except.error e => Except.error e
      | Except.ok (tr, ms, t') =>
        Except.ok ((if show_steps then [OutEvent.stateMsg "Initial state:" towers] else []) ++
            tr ++ (if show_steps then [OutEvent.stateMsg "Final state:" t'] else []),
          ms, t')

/-- The spec's peg invariant: within any peg's sequence, values are
strictly decreasing from bottom (first element) to top (last element). -/
def towersInv (t : Towers) : Prop :=
  ∀ p, (t.peg p).Chain' (· > ·)

/-- Every tower state printed in the trace satisfies the peg invariant;
`moveMsg` events carry no state. -/
def eventInv : OutEvent → Prop
  | .moveMsg _ _ _ => True
  | .stateMsg _ t => towersInv t

/-- Forget the printed trace, keeping the move sequence and final state. -/
def dropTrace (res : Except HanoiError (List OutEvent × List Move × Towers)) :
    Except HanoiError (List Move × Towers) :=
  res.map fun x => (x.2.1, x.2.2)

end Hanoi

namespace Koch

/-- Turtle-graphics operations issued by the Koch module, in call order.
`forward`, `left` and `right` model the `turtle` calls inside
`koch_curve`; the remaining constructors model the window and pen setup
performed by `draw_koch_snowflake` before and after drawing. -/
inductive GfxOp where
  | forward (length : ℚ)
  | left (angle : ℚ)
  | right (angle : ℚ)
  | screenSetup
  | penup
  | goto (x y : ℚ)
  | pendown
  | hideturtle
  | mainloop
  deriving DecidableEq, Repr

/-- Embedding of `koch_curve(t, length, level)`: the list of turtle operations it
issues; level `0` draws one segment, otherwise the length is divided by
`3.0` and four sub-curves are drawn with `+60°`, `-120°`, `+60°` turns
between them.  Python floats are modelled by exact rationals. -/
def koch_curve (length : ℚ) : Nat → List GfxOp
  | 0 => [GfxOp.forward length]
  | level + 1 =>
    let length := length / 3
    koch_curve length level ++ [GfxOp.left 60] ++
      koch_curve length level ++ [GfxOp.right 120] ++
        koch_curve length level ++ [GfxOp.left 60] ++
          koch_curve length level

/-- Embedding of `draw_koch_snowflake(length, level)`: validate the inputs, then set
up the window and pen, draw three Koch curves with `120°` right turns
between them, and finish.  The guards run before any graphics operation,
so a failing call returns an error and no operations. -/
def draw_koch_snowflake (length : ℚ) (level : Int) : Except String (List GfxOp) :=
  if level < 0 then Except.error "Recursion level must be non-negative"
  else if length ≤ 0 then Except.error "Length must be positive"
  else
    Except.ok ([GfxOp.screenSetup, GfxOp.penup, GfxOp.goto (-length / 2) (length / 3),
        GfxOp.pendown] ++
      (List.replicate 3 (koch_curve length level.toNat ++ [GfxOp.right 120])).flatten ++
      [GfxOp.hideturtle, GfxOp.mainloop])

/-- Is an operation a forward movement? -/
def isForward : GfxOp → Bool
  | .forward _ => true
  | _ => false

/-- Signed turn contributed by one operation (`left` positive,
`right` negative). -/
def turnOf : GfxOp → ℚ
  | .left a => a
  | .right a => -a
  | _ => 0

/-- Net turning angle of a sequence of operations. -/
def netTurn (ops : List GfxOp) : ℚ :=
  (ops.map turnOf).sum

end Koch

namespace FileCopier

/-- Python `name.rfind('.')` on a character list: index of the last
dot, `none` when there is no dot. -/
def rfindDot : List Char → Option Nat
  | [] => none
  | c :: cs =>
    match rfindDot cs with
    | some i => some (i + 1)
    | none => if c = '.' then some 0 else none

/-- Model of `pathlib.PurePath.suffix` of a file name: the part from the last dot
on, provided that dot is neither the first nor the last character. -/
def pySuffix (name : String) : String :=
  match rfindDot name.data with
  | none => ""
  | some i =>
    if 0 < i ∧ i < name.data.length - 1 then String.mk (name.data.drop i) else ""

/-- Model of `pathlib.PurePath.stem` of a file name: the part before the suffix. -/
def pyStem (name : String) : String :=
  match rfindDot name.data with
  | none => name
  | some i =>
    if 0 < i ∧ i < name.data.length - 1 then String.mk (name.data.take i) else name

/-- Python `str.lower()` (ASCII case mapping, `Char.toLower` per char). -/
def pyLower (s : String) : String :=
  String.mk (s.data.map Char.toLower)

/-- Python `str.lstrip('.')`: remove every leading dot. -/
def lstripDots (s : String) : String :=
  String.mk (s.data.dropWhile (· = '.'))

/-- Embedding of `get_file_extension`: the suffix without its dot, lowercased, or the
sentinel `'no_extension'` when that is empty. -/
def get_file_extension (name : String) : String :=
  let extension := lstripDots (pySuffix name)
  if extension ≠ "" then pyLower extension else "no_extension"

/-- One item of a source directory: a file (by base name) or a
subdirectory with its items (`Path.iterdir` order). -/
inductive FsItem where
  | file (name : String) : FsItem
  | dir (items : List FsItem) : FsItem

/-- The collision loop of `copy_file_to_destination`: while the bucket
already holds the candidate name, try `{stem}_{counter}{suffix}` with the
next counter.  The explicit fuel bounds Python's unbounded `while`; the
runs considered here never exhaust it. -/
def findDest (fs : List (String × String)) (extension stem sfx : String) :
    Nat → Nat → String → String
  | 0, _, current => current
  | fuel + 1, counter, current =>
    if (extension, current) ∈ fs then
      findDest fs extension stem sfx fuel (counter + 1)
        (stem ++ "_" ++ toString counter ++ sfx)
    else current

/-- Embedding of `copy_file_to_destination`: bucket the file under its lowercased
extension (creating the bucket on demand), resolve name collisions
within the bucket, and record the copy.  The destination tree is
modelled as the list of `(bucket directory, file name)` pairs in
creation order. -/
def copy_file_to_destination (name : String) (fs : List (String × String)) :
    List (String × String) :=
  let extension := get_file_extension name
  let destName :=
    findDest fs extension (pyStem name) (pySuffix name) (fs.length + 2) 1 name
  fs ++ [(extension, destName)]

/-- Embedding of `process_directory_recursive`: copy every file under the source
tree into the destination, recursing into subdirectories, siblings in
list order. -/
def process_directory_recursive : List FsItem → List (String × String) →
    List (String × String)
  | [], fs => fs
  | FsItem.file name :: rest, fs =>
    process_directory_recursive rest (copy_file_to_destination name fs)
  | FsItem.dir items :: rest, fs =>
    process_directory_recursive rest (process_directory_recursive items fs)

end FileCopier

namespace Hanoi

theorem Towers.peg_setPeg (t : Towers) (p q : Peg) (l : List Int) :
    (t.setPeg p l).peg q = if q = p then l else t.peg q := by
  cases p <;> cases q <;> simp [Towers.setPeg, Towers.peg]

theorem Towers.peg_setPeg_self (t : Towers) (p : Peg) (l : List Int) :
    (t.setPeg p l).peg p = l := by
  simp [Towers.peg_setPeg]

theorem Towers.peg_setPeg_ne (t : Towers) (p q : Peg) (l : List Int) (h : q ≠ p) :
    (t.setPeg p l).peg q = t.peg q := by
  simp [Towers.peg_setPeg, h]

theorem Towers.ext_peg (t t' : Towers) (h : ∀ p, t.peg p = t'.peg p) : t = t' := by
  cases t
  cases t'
  have hA := h .A
  have hB := h .B
  have hC := h .C
  simp only [Towers.peg] at hA hB hC
  simp [hA, hB, hC]

theorem peg_cases : ∀ p q r pg : Peg, p ≠ q → p ≠ r → q ≠ r →
    pg = p ∨ pg = q ∨ pg = r := by
  decide

theorem chain'_append_of_forall_gt {zs l2 : List Int}
    (h1 : zs.Chain' (· > ·)) (h2 : l2.Chain' (· > ·))
    (hb : ∀ x ∈ zs, ∀ y ∈ l2, y < x) : (zs ++ l2).Chain' (· > ·) := by
  rw [List.chain'_append]
  refine ⟨h1, h2, ?_⟩
  intro x hx y hy
  exact hb x (List.mem_of_mem_getLast? hx) y (List.mem_of_mem_head? hy)

theorem move_disk_ok (t : Towers) (s d : Peg) (xs : List Int) (disk : Int)
    (hs : t.peg s = xs ++ [disk])
    (hd : ∀ top ∈ (t.peg d).getLast?, disk < top) :
    move_disk t s d =
      Except.ok (disk, (t.setPeg s xs).setPeg d ((t.setPeg s xs).peg d ++ [disk])) := by
  unfold move_disk
  rw [hs, List.getLast?_concat]
  cases hq : (t.peg d).getLast? with
  | none =>
    simp only [hs, List.dropLast_concat]
  | some top =>
    have hlt : ¬ top < disk := not_lt_of_gt (hd top (by rw [hq]; rfl))
    simp only [hlt, if_false, hs, List.dropLast_concat]

theorem rangeDown_one : rangeDown 1 = [(1 : Int)] := by
  norm_num [rangeDown]

theorem rangeDown_succ_eq (k : Nat) :
    rangeDown (k + 1) = ((k + 1 : Nat) : Int) :: rangeDown k := rfl

theorem mem_rangeDown : ∀ {m : Nat} {d : Int}, d ∈ rangeDown m → 1 ≤ d ∧ d ≤ (m : Int) := by
  intro m
  induction m with
  | zero => intro d h; simp [rangeDown] at h
  | succ k ih =>
    intro d h
    rw [rangeDown_succ_eq, List.mem_cons] at h
    rcases h with rfl | h
    · constructor <;> [push_cast; skip] <;> omega
    · have := ih h
      push_cast
      omega

theorem chain'_rangeDown : ∀ m : Nat, (rangeDown m).Chain' (· > ·) := by
  intro m
  induction m with
  | zero => simp [rangeDown]
  | succ k ih =>
    rw [rangeDown_succ_eq]
    rw [List.chain'_cons']
    refine ⟨?_, ih⟩
    intro y hy
    have := mem_rangeDown (List.mem_of_mem_head? hy)
    push_cast
    omega

theorem hanoi_recursive_correct :
    ∀ (m fuel : Nat) (p q r : Peg) (t : Towers) (ss : Bool) (xs ys zs : List Int),
      1 ≤ m → m ≤ fuel →
      p ≠ q → p ≠ r → q ≠ r →
      t.peg p = xs ++ rangeDown m →
      t.peg q = ys →
      t.peg r = zs →
      (∀ d ∈ xs, (m : Int) < d) →
      (∀ d ∈ ys, (m : Int) < d) →
      (∀ d ∈ zs, (m : Int) < d) →
      xs.Chain' (· > ·) → ys.Chain' (· > ·) → zs.Chain' (· > ·) →
      ∃ tr ms t',
        hanoi_recursive fuel (m : Int) p q r t ss = Except.ok (tr, ms, t') ∧
        ms.length = 2 ^ m - 1 ∧
        tr.length = (if ss then 2 * (2 ^ m - 1) else 0) ∧
        t'.peg p = xs ∧
        t'.peg q = ys ++ rangeDown m ∧
        t'.peg r = zs ∧
        (∀ ev ∈ tr, eventInv ev) := by
  intro m
  induction m with
  | zero => intro fuel p q r t ss xs ys zs h1; omega
  | succ k ih =>
    intro fuel p q r t ss xs ys zs h1 hfuel hpq hpr hqr hp hq hr hxs hys hzs cxs cys czs
    obtain ⟨f, rfl⟩ : ∃ f, fuel = f + 1 := ⟨fuel - 1, by omega⟩
    by_cases hk : k = 0
    · -- base case: one disk
      subst hk
      have hp1 : t.peg p = xs ++ [(1 : Int)] := by
        rw [hp, rangeDown_one]
      have hd1 : ∀ top ∈ (t.peg q).getLast?, (1 : Int) < top := by
        intro top htop
        have hm : top ∈ ys := by
          rw [← hq]; exact List.mem_of_mem_getLast? htop
        have := hys top hm
        push_cast at this
        omega
      have hmd := move_disk_ok t p q xs 1 hp1 hd1
      rw [Towers.peg_setPeg_ne t p q xs hpq.symm, hq] at hmd
      refine ⟨(if ss then [OutEvent.moveMsg p q 1,
          OutEvent.stateMsg "Intermediate state:" ((t.setPeg p xs).setPeg q (ys ++ [1]))] else []),
        [⟨p, q, 1⟩], (t.setPeg p xs).setPeg q (ys ++ [1]), ?_, ?_, ?_, ?_, ?_, ?_, ?_⟩
      · have hone : ((0 + 1 : Nat) : Int) = 1 := by norm_num
        simp [hanoi_recursive, hone, hmd]
      · rfl
      · cases ss <;> rfl
      · rw [Towers.peg_setPeg_ne _ q p _ hpq, Towers.peg_setPeg_self]
      · rw [Towers.peg_setPeg_self, rangeDown_one]
      · rw [Towers.peg_setPeg_ne _ q r _ hqr.symm, Towers.peg_setPeg_ne _ p r _ hpr.symm, hr]
      · intro ev hev
        have hinvT : towersInv ((t.setPeg p xs).setPeg q (ys ++ [1])) := by
          intro pg
          rcases peg_cases p q r pg hpq hpr hqr with rfl | rfl | rfl
          · rw [Towers.peg_setPeg_ne _ q pg _ hpq, Towers.peg_setPeg_self]; exact cxs
          · rw [Towers.peg_setPeg_self]
            refine chain'_append_of_forall_gt cys (List.chain'_singleton _) ?_
            intro x hx y hy
            have := hys x hx
            simp only [List.mem_singleton] at hy
            subst hy
            push_cast at this
            omega
          · rw [Towers.peg_setPeg_ne _ q pg _ hqr.symm, Towers.peg_setPeg_ne _ p pg _ hpr.symm, hr]
            exact czs
        cases ss with
        | false => simp at hev
        | true =>
          simp only [if_true, List.mem_cons, List.mem_singleton] at hev
          rcases hev with rfl | rfl | h
          · trivial
          · exact hinvT
          · simp at h
    · -- recursive case: k ≥ 1 disks below the largest
      have hk1 : 1 ≤ k := by omega
      have hne : ((k + 1 : Nat) : Int) ≠ 1 := by push_cast; omega
      have hcast : ((k + 1 : Nat) : Int) - 1 = (k : Int) := by push_cast; ring
      -- first recursive transfer: k disks from p to r
      have hp' : t.peg p = (xs ++ [((k + 1 : Nat) : Int)]) ++ rangeDown k := by
        rw [hp, rangeDown_succ_eq, List.append_assoc]; rfl
      have hxs' : ∀ d ∈ xs ++ [((k + 1 : Nat) : Int)], (k : Int) < d := by
        intro d hd
        rcases List.mem_append.mp hd with h | h
        · have := hxs d h; push_cast at this ⊢; omega
        · simp only [List.mem_singleton] at h; subst h; push_cast; omega
      have hys' : ∀ d ∈ ys, (k : Int) < d := by
        intro d hd; have := hys d hd; push_cast at this ⊢; omega
      have hzs' : ∀ d ∈ zs, (k : Int) < d := by
        intro d hd; have := hzs d hd; push_cast at this ⊢; omega
      have cxs' : (xs ++ [((k + 1 : Nat) : Int)]).Chain' (· > ·) := by
        refine chain'_append_of_forall_gt cxs (List.chain'_singleton _) ?_
        intro x hx y hy
        simp only [List.mem_singleton] at hy
        subst hy
        exact hxs x hx
      obtain ⟨tr1, ms1, t1, heq1, hlen1, htr1, ht1p, ht1r, ht1q, hinv1⟩ :=
        ih f p r q t ss (xs ++ [((k + 1 : Nat) : Int)]) zs ys hk1 (by omega)
          hpr hpq (Ne.symm hqr) hp' hr hq hxs' hzs' hys' cxs' czs cys
      -- move the largest disk from p to q
      have hd2 : ∀ top ∈ (t1.peg q).getLast?, ((k + 1 : Nat) : Int) < top := by
        intro top htop
        have hm : top ∈ ys := by rw [← ht1q]; exact List.mem_of_mem_getLast? htop
        exact hys top hm
      have heq2 := move_disk_ok t1 p q xs ((k + 1 : Nat) : Int) ht1p hd2
      rw [Towers.peg_setPeg_ne t1 p q xs hpq.symm, ht1q] at heq2
      set t2 := (t1.setPeg p xs).setPeg q (ys ++ [((k + 1 : Nat) : Int)]) with ht2
      have ht2p : t2.peg p = xs := by
        rw [ht2, Towers.peg_setPeg_ne _ q p _ hpq, Towers.peg_setPeg_self]
      have ht2q : t2.peg q = ys ++ [((k + 1 : Nat) : Int)] := by
        rw [ht2, Towers.peg_setPeg_self]
      have ht2r : t2.peg r = zs ++ rangeDown k := by
        rw [ht2, Towers.peg_setPeg_ne _ q r _ hqr.symm, Towers.peg_setPeg_ne _ p r _ hpr.symm, ht1r]
      have cys' : (ys ++ [((k + 1 : Nat) : Int)]).Chain' (· > ·) := by
        refine chain'_append_of_forall_gt cys (List.chain'_singleton _) ?_
        intro x hx y hy
        simp only [List.mem_singleton] at hy
        subst hy
        exact hys x hx
      have hys'' : ∀ d ∈ ys ++ [((k + 1 : Nat) : Int)], (k : Int) < d := by
        intro d hd
        rcases List.mem_append.mp hd with h | h
        · exact hys' d h
        · simp only [List.mem_singleton] at h; subst h; push_cast; omega
      have hxs0 : ∀ d ∈ xs, (k : Int) < d := by
        intro d hd; have := hxs d hd; push_cast at this ⊢; omega
      -- second recursive transfer: k disks from r to q
      obtain ⟨tr3, ms3, t3, heq3, hlen3, htr3, ht3r, ht3q, ht3p, hinv3⟩ :=
        ih f r q p t2 ss zs (ys ++ [((k + 1 : Nat) : Int)]) xs hk1 (by omega)
          (Ne.symm hqr) (Ne.symm hpr) (Ne.symm hpq) ht2r ht2q ht2p hzs' hys'' hxs0 czs cys' cxs
      refine ⟨tr1 ++ (if ss then [OutEvent.moveMsg p q ((k + 1 : Nat) : Int),
          OutEvent.stateMsg "Intermediate state:" t2] else []) ++ tr3,
        ms1 ++ ⟨p, q, ((k + 1 : Nat) : Int)⟩ :: ms3, t3, ?_, ?_, ?_, ?_, ?_, ?_, ?_⟩
      · simp only [hanoi_recursive, if_neg hne, hcast, heq1, heq2, heq3]
      · have h2k : 1 ≤ 2 ^ k := Nat.one_le_two_pow
        simp only [List.length_append, List.length_cons, hlen1, hlen3, pow_succ]
        omega
      · have h2k : 1 ≤ 2 ^ k := Nat.one_le_two_pow
        cases ss with
        | false => simp [List.length_append, htr1, htr3]
        | true =>
          simp [List.length_append, htr1, htr3, pow_succ]
          omega
      · exact ht3p
      · rw [ht3q, List.append_assoc, List.singleton_append, ← rangeDown_succ_eq]
      · exact ht3r
      · intro ev hev
        rcases List.mem_append.mp hev with hev | hev3
        · rcases List.mem_append.mp hev with hev1 | hevm
          · exact hinv1 ev hev1
          · cases ss with
            | false => simp at hevm
            | true =>
              simp only [if_true, List.mem_cons, List.mem_singleton] at hevm
              rcases hevm with rfl | rfl | h
              · trivial
              · intro pg
                rcases peg_cases p q r pg hpq hpr hqr with rfl | rfl | rfl
                · rw [ht2p]; exact cxs
                · rw [ht2q]; exact cys'
                · rw [ht2r]
                  refine chain'_append_of_forall_gt czs (chain'_rangeDown k) ?_
                  intro x hx y hy
                  have h1 := mem_rangeDown hy
                  have h2 := hzs x hx
                  push_cast at h1 h2 ⊢
                  omega
              · simp at h
        · exact hinv3 ev hev3

theorem solve_hanoi_run (n : Int) (fuel : Nat) (ss : Bool)
    (h1 : 1 ≤ n) (hf : n.toNat ≤ fuel) :
    ∃ tr ms t',
      solve_hanoi fuel n ss =
        Except.ok ((if ss then [OutEvent.stateMsg "Initial state:" ⟨rangeDown n.toNat, [], []⟩]
            else []) ++ tr ++ (if ss then [OutEvent.stateMsg "Final state:" t'] else []),
          ms, t') ∧
      t' = Towers.mk [] [] (rangeDown n.toNat) ∧
      ms.length = 2 ^ n.toNat - 1 ∧
      tr.length = (if ss then 2 * (2 ^ n.toNat - 1) else 0) ∧
      (∀ ev ∈ tr, eventInv ev) := by
  have hn : ¬ n < 1 := by omega
  have hcast : ((n.toNat : Nat) : Int) = n := Int.toNat_of_nonneg (by omega)
  have hm1 : 1 ≤ n.toNat := by omega
  obtain ⟨tr, ms, t', heq, hlen, htr, htA, htC, htB, hinv⟩ :=
    hanoi_recursive_correct n.toNat fuel Peg.A Peg.C Peg.B ⟨rangeDown n.toNat, [], []⟩ ss
      [] [] [] hm1 hf (by decide) (by decide) (by decide)
      (by simp [Towers.peg]) rfl rfl
      (by simp) (by simp) (by simp) (by simp) (by simp) (by simp)
  rw [hcast] at heq
  have ht' : t' = Towers.mk [] [] (rangeDown n.toNat) := by
    apply Towers.ext_peg
    intro p
    cases p
    · rw [htA]; rfl
    · rw [htB]; rfl
    · rw [htC]; simp [Towers.peg]
  refine ⟨tr, ms, t', ?_, ht', hlen, htr, hinv⟩
  simp only [solve_hanoi, initialize_towers, if_neg hn, heq]

/-- C1: for every `n >= 1` (given enough fuel for the recursion),
`solve_hanoi` succeeds, performs exactly `2 ^ n - 1` disk moves, and
returns the final state in which peg `C` holds `[n, ..., 1]` (descending
from bottom to top) and pegs `A` and `B` are empty. -/
theorem solve_hanoi_correct (n : Int) (fuel : Nat) (ss : Bool)
    (h1 : 1 ≤ n) (hf : n.toNat ≤ fuel) :
    ∃ tr ms, solve_hanoi fuel n ss =
        Except.ok (tr, ms, Towers.mk [] [] (rangeDown n.toNat)) ∧
      ms.length = 2 ^ n.toNat - 1 := by
  obtain ⟨tr, ms, t', heq, ht', hlen, -, -⟩ := solve_hanoi_run n fuel ss h1 hf
  subst ht'
  exact ⟨_, ms, heq, hlen⟩

theorem solve_hanoi_correct_check : ∃ tr ms,
    solve_hanoi 3 3 false = Except.ok (tr, ms, Towers.mk [] [] (rangeDown 3)) ∧
      ms.length = 2 ^ 3 - 1 :=
  solve_hanoi_correct 3 3 false (by decide) (by decide)

/-- C2: with trace output on, every tower state that `solve_hanoi` prints
(the initial state, the state after each individual disk move, and the
final state) has every peg strictly decreasing from bottom to top; the
trace does contain one state per move plus the initial and final states. -/
theorem solve_hanoi_invariant (n : Int) (fuel : Nat)
    (h1 : 1 ≤ n) (hf : n.toNat ≤ fuel) :
    ∃ tr ms t', solve_hanoi fuel n true = Except.ok (tr, ms, t') ∧
      tr.length = 2 * (2 ^ n.toNat - 1) + 2 ∧
      ∀ msg s, OutEvent.stateMsg msg s ∈ tr → towersInv s := by
  obtain ⟨tr, ms, t', heq, ht', hlen, htr, hinv⟩ := solve_hanoi_run n fuel true h1 hf
  have hinv0 : towersInv (Towers.mk (rangeDown n.toNat) [] []) := by
    intro p
    cases p
    · exact chain'_rangeDown n.toNat
    · simp [Towers.peg]
    · simp [Towers.peg]
  have hinvF : towersInv t' := by
    subst ht'
    intro p
    cases p
    · simp [Towers.peg]
    · simp [Towers.peg]
    · exact chain'_rangeDown n.toNat
  refine ⟨_, ms, t', heq, ?_, ?_⟩
  · simp only [if_true, List.length_append, List.length_cons, List.length_nil, htr]
    omega
  · intro msg s hs
    rcases List.mem_append.mp hs with hs | hs
    · rcases List.mem_append.mp hs with hs | hs
      · simp only [if_true, List.mem_singleton] at hs
        cases hs
        exact hinv0
      · have := hinv _ hs
        exact this
    · simp only [if_true, List.mem_singleton] at hs
      cases hs
      exact hinvF

theorem solve_hanoi_invariant_check : ∃ tr ms t',
    solve_hanoi 2 2 true = Except.ok (tr, ms, t') ∧
      tr.length = 2 * (2 ^ 2 - 1) + 2 ∧
      ∀ msg s, OutEvent.stateMsg msg s ∈ tr → towersInv s :=
  solve_hanoi_invariant 2 2 (by decide) (by decide)

theorem hanoi_recursive_lt_one : ∀ (fuel : Nat) (n : Int), n < 1 →
    ∀ (p q r : Peg) (t : Towers) (ss : Bool),
      hanoi_recursive fuel n p q r t ss = Except.error HanoiError.recursionLimit := by
  intro fuel
  induction fuel with
  | zero => intro n h p q r t ss; rfl
  | succ f ih =>
    intro n h p q r t ss
    have hne : n ≠ 1 := by omega
    rw [hanoi_recursive, if_neg hne, ih (n - 1) (by omega) p r q t ss]

/-- C4: a disk count below 1 is rejected before any state mutation.
`solve_hanoi` raises the `InvalidInput` `ValueError` up front, and
`hanoi_recursive` itself, which has no explicit guard, recurses without
ever calling `move_disk` until the recursion limit is hit (for every
fuel bound), so no partial move sequence is ever applied. -/
theorem hanoi_count_lt_one_rejected (n : Int) (h : n < 1) :
    (∀ fuel ss, solve_hanoi fuel n ss =
        Except.error (HanoiError.invalidInput "Number of disks must be at least 1")) ∧
    (∀ fuel p q r t ss, hanoi_recursive fuel n p q r t ss =
        Except.error HanoiError.recursionLimit) := by
  constructor
  · intro fuel ss
    rw [solve_hanoi, if_pos h]
  · intro fuel p q r t ss
    exact hanoi_recursive_lt_one fuel n h p q r t ss

theorem hanoi_count_lt_one_rejected_check :
    solve_hanoi 5 0 true =
        Except.error (HanoiError.invalidInput "Number of disks must be at least 1") ∧
      hanoi_recursive 5 0 Peg.A Peg.C Peg.B ⟨[], [], []⟩ true =
        Except.error HanoiError.recursionLimit :=
  ⟨(hanoi_count_lt_one_rejected 0 (by decide)).1 5 true,
   (hanoi_count_lt_one_rejected 0 (by decide)).2 5 Peg.A Peg.C Peg.B ⟨[], [], []⟩ true⟩

theorem hanoi_recursive_show_steps :
    ∀ (fuel : Nat) (n : Int) (p q r : Peg) (t : Towers),
      dropTrace (hanoi_recursive fuel n p q r t true) =
        dropTrace (hanoi_recursive fuel n p q r t false) := by
  intro fuel
  induction fuel with
  | zero => intro n p q r t; rfl
  | succ f ih =>
    intro n p q r t
    by_cases h : n = 1
    · subst h
      rw [hanoi_recursive, hanoi_recursive, if_pos rfl, if_pos rfl]
      cases move_disk t p q with
      | error e => rfl
      | ok pr => rfl
    · have h1 := ih (n - 1) p r q t
      rw [hanoi_recursive, hanoi_recursive, if_neg h, if_neg h]
      cases e1 : hanoi_recursive f (n - 1) p r q t true with
      | error e =>
        cases e2 : hanoi_recursive f (n - 1) p r q t false with
        | error e' =>
          rw [e1, e2] at h1
          simp only [dropTrace, Except.map, Except.error.injEq] at h1
          simp [h1]
        | ok y =>
          rw [e1, e2] at h1
          simp [dropTrace, Except.map] at h1
      | ok x =>
        cases e2 : hanoi_recursive f (n - 1) p r q t false with
        | error e' =>
          rw [e1, e2] at h1
          simp [dropTrace, Except.map] at h1
        | ok y =>
          rw [e1, e2] at h1
          simp only [dropTrace, Except.map, Except.ok.injEq, Prod.mk.injEq] at h1
          obtain ⟨tr1, ms1, t1⟩ := x
          obtain ⟨tr1', ms1', t1'⟩ := y
          simp only at h1
          obtain ⟨hms1, ht1⟩ := h1
          subst hms1
          subst ht1
          dsimp only
          cases move_disk t1 p q with
          | error e => rfl
          | ok pr =>
            obtain ⟨disk, t2⟩ := pr
            dsimp only
            have h3 := ih (n - 1) r q p t2
            cases e3 : hanoi_recursive f (n - 1) r q p t2 true with
            | error e =>
              cases e4 : hanoi_recursive f (n - 1) r q p t2 false with
              | error e' =>
                rw [e3, e4] at h3
                simp only [dropTrace, Except.map, Except.error.injEq] at h3
                simp [h3]
              | ok y3 =>
                rw [e3, e4] at h3
                simp [dropTrace, Except.map] at h3
            | ok x3 =>
              cases e4 : hanoi_recursive f (n - 1) r q p t2 false with
              | error e' =>
                rw [e3, e4] at h3
                simp [dropTrace, Except.map] at h3
              | ok y3 =>
                rw [e3, e4] at h3
                simp only [dropTrace, Except.map, Except.ok.injEq, Prod.mk.injEq] at h3
                obtain ⟨tr3, ms3, t3⟩ := x3
                obtain ⟨tr3', ms3', t3'⟩ := y3
                simp only at h3
                obtain ⟨hms3, ht3⟩ := h3
                subst hms3
                subst ht3
                rfl

/-- C6: the `show_steps` flag influences only the printed trace: both the
helper `hanoi_recursive` (for every disk count and tower state) and
`solve_hanoi` produce the same move sequence and the same final tower
state with `show_steps = True` as with `show_steps = False`. -/
theorem show_steps_noninterference :
    (∀ (fuel : Nat) (n : Int) (p q r : Peg) (t : Towers),
      dropTrace (hanoi_recursive fuel n p q r t true) =
        dropTrace (hanoi_recursive fuel n p q r t false)) ∧
    (∀ (fuel : Nat) (n : Int),
      dropTrace (solve_hanoi fuel n true) = dropTrace (solve_hanoi fuel n false)) := by
  refine ⟨hanoi_recursive_show_steps, ?_⟩
  intro fuel n
  by_cases h : n < 1
  · rw [solve_hanoi, solve_hanoi, if_pos h, if_pos h]
  · rw [solve_hanoi, solve_hanoi, if_neg h, if_neg h]
    cases e0 : initialize_towers n with
    | error e => rfl
    | ok t0 =>
      dsimp only
      have h1 := hanoi_recursive_show_steps fuel n Peg.A Peg.C Peg.B t0
      cases e1 : hanoi_recursive fuel n Peg.A Peg.C Peg.B t0 true with
      | error e =>
        cases e2 : hanoi_recursive fuel n Peg.A Peg.C Peg.B t0 false with
        | error e' =>
          rw [e1, e2] at h1
          simp only [dropTrace, Except.map, Except.error.injEq] at h1
          simp [h1]
        | ok y =>
          rw [e1, e2] at h1
          simp [dropTrace, Except.map] at h1
      | ok x =>
        cases e2 : hanoi_recursive fuel n Peg.A Peg.C Peg.B t0 false with
        | error e' =>
          rw [e1, e2] at h1
          simp [dropTrace, Except.map] at h1
        | ok y =>
          rw [e1, e2] at h1
          simp only [dropTrace, Except.map, Except.ok.injEq, Prod.mk.injEq] at h1
          obtain ⟨tr, ms, t'⟩ := x
          obtain ⟨tr', ms', t''⟩ := y
          simp only at h1
          obtain ⟨hms, ht⟩ := h1
          subst hms
          subst ht
          rfl

theorem show_steps_noninterference_check :
    dropTrace (hanoi_recursive 3 3 Peg.A Peg.C Peg.B ⟨rangeDown 3, [], []⟩ true) =
        dropTrace (hanoi_recursive 3 3 Peg.A Peg.C Peg.B ⟨rangeDown 3, [], []⟩ false) ∧
      dropTrace (solve_hanoi 3 3 true) = dropTrace (solve_hanoi 3 3 false) :=
  ⟨show_steps_noninterference.1 3 3 Peg.A Peg.C Peg.B ⟨rangeDown 3, [], []⟩,
   show_steps_noninterference.2 3 3⟩

/-- Amended C3 characterization of `move_disk`: it fails on an empty
source peg; with a non-empty source it fails exactly when the destination
peg is non-empty with its top disk *strictly smaller* than the source's
top disk (so equal tops are allowed, unlike the claim's "strictly larger"
precondition); on success it pops the source's top disk, pushes it onto
the destination and returns it.  A failing call returns no successor
state: both checks precede the mutation in the source. -/
theorem move_disk_characterization (t : Towers) (s d : Peg) :
    (t.peg s = [] → move_disk t s d = Except.error (MoveError.emptySource s)) ∧
    (∀ disk, (t.peg s).getLast? = some disk →
      (∀ dtop, (t.peg d).getLast? = some dtop → dtop < disk →
        move_disk t s d = Except.error (MoveError.sizeViolation disk dtop)) ∧
      ((t.peg d = [] ∨ ∃ dtop, (t.peg d).getLast? = some dtop ∧ disk ≤ dtop) →
        move_disk t s d = Except.ok (disk,
          (t.setPeg s (t.peg s).dropLast).setPeg d
            ((t.setPeg s (t.peg s).dropLast).peg d ++ [disk])))) := by
  constructor
  · intro hempty
    unfold move_disk
    rw [hempty]
    rfl
  · intro disk hdisk
    constructor
    · intro dtop hdtop hlt
      unfold move_disk
      rw [hdisk, hdtop]
      dsimp only
      rw [if_pos hlt]
    · intro hok
      unfold move_disk
      rw [hdisk]
      rcases hok with hemp | ⟨dtop, hdtop, hle⟩
      · rw [hemp]
        rfl
      · rw [hdtop]
        dsimp only
        rw [if_neg (not_lt_of_ge hle)]

/-- The C3 claim as stated is false on the code: with towers
`A = [1]`, `B = [1]`, the destination `B` is non-empty and its top disk
`1` is not strictly larger than the source's top disk `1`, yet
`move_disk` succeeds (the code only rejects `dtop < disk`), stacking the
two equal disks. -/
theorem move_disk_equal_top_allowed :
    move_disk ⟨[1], [1], []⟩ Peg.A Peg.B = Except.ok (1, ⟨[], [1, 1], []⟩) ∧
      (Towers.mk [1] [1] []).peg Peg.B ≠ [] ∧
      ((Towers.mk [1] [1] []).peg Peg.B).getLast? = some 1 ∧
      ¬ (1 : Int) < 1 :=
  ⟨rfl, by decide, rfl, by decide⟩

theorem move_disk_characterization_check :
    move_disk ⟨[], [2], []⟩ Peg.A Peg.B = Except.error (MoveError.emptySource Peg.A) ∧
      move_disk ⟨[1], [], [2]⟩ Peg.C Peg.A = Except.error (MoveError.sizeViolation 2 1) ∧
      move_disk ⟨[2], [], [3]⟩ Peg.A Peg.C =
        Except.ok (2, (Towers.mk [2] [] [3]).setPeg Peg.A [] |>.setPeg Peg.C
          ((((Towers.mk [2] [] [3]).setPeg Peg.A []).peg Peg.C) ++ [2])) :=
  ⟨(move_disk_characterization ⟨[], [2], []⟩ Peg.A Peg.B).1 rfl,
   ((move_disk_characterization ⟨[1], [], [2]⟩ Peg.C Peg.A).2 2 rfl).1 1 rfl (by decide),
   ((move_disk_characterization ⟨[2], [], [3]⟩ Peg.A Peg.C).2 2 rfl).2
     (Or.inr ⟨3, rfl, by decide⟩)⟩

end Hanoi

namespace Koch

theorem netTurn_append (l1 l2 : List GfxOp) :
    netTurn (l1 ++ l2) = netTurn l1 + netTurn l2 := by
  simp [netTurn]

theorem koch_curve_succ (length : ℚ) (level : Nat) :
    koch_curve length (level + 1) =
      koch_curve (length / 3) level ++ [GfxOp.left 60] ++
        koch_curve (length / 3) level ++ [GfxOp.right 120] ++
          koch_curve (length / 3) level ++ [GfxOp.left 60] ++
            koch_curve (length / 3) level := rfl

theorem koch_curve_spec (length : ℚ) (depth : Nat) :
    ((koch_curve length depth).filter isForward).length = 4 ^ depth ∧
      (∀ op ∈ koch_curve length depth, ∀ l, op = GfxOp.forward l → l = length / 3 ^ depth) ∧
      netTurn (koch_curve length depth) = 0 := by
  induction depth generalizing length with
  | zero =>
    refine ⟨rfl, ?_, by simp [netTurn, koch_curve, turnOf]⟩
    intro op hop l hl
    simp only [koch_curve, List.mem_singleton] at hop
    subst hop
    cases hl
    norm_num
  | succ d ih =>
    obtain ⟨ihc, ihl, iht⟩ := ih (length / 3)
    refine ⟨?_, ?_, ?_⟩
    · simp only [koch_curve_succ, List.filter_append, List.length_append, ihc]
      simp [isForward, pow_succ]
      ring
    · intro op hop l hl
      have hmem : op ∈ koch_curve (length / 3) d ∨
          op = GfxOp.left 60 ∨ op = GfxOp.right 120 := by
        simp only [koch_curve_succ, List.mem_append, List.mem_singleton] at hop
        tauto
      rcases hmem with hm | rfl | rfl
      · have := ihl op hm l hl
        rw [this]
        rw [div_div]
        rw [pow_succ']
      · cases hl
      · cases hl
    · simp only [netTurn] at iht
      simp only [koch_curve_succ, netTurn, List.map_append, List.sum_append, iht,
        List.map_cons, List.map_nil, List.sum_cons, List.sum_nil, turnOf]
      norm_num

/-- C5: for every `depth >= 0` and `length > 0`, one `koch_curve` call
issues exactly `4 ^ depth` forward-movement calls, each of length
`length / 3 ^ depth`, and the signed sum of all turn angles it issues
(left positive, right negative) is zero. -/
theorem koch_curve_counts (length : ℚ) (depth : Nat) (_h : 0 < length) :
    ((koch_curve length depth).filter isForward).length = 4 ^ depth ∧
      (∀ op ∈ koch_curve length depth, ∀ l, op = GfxOp.forward l → l = length / 3 ^ depth) ∧
      netTurn (koch_curve length depth) = 0 :=
  koch_curve_spec length depth

theorem koch_curve_counts_check :
    (0 : ℚ) < 9 ∧
      (((koch_curve 9 2).filter isForward).length = 4 ^ 2 ∧
        (∀ op ∈ koch_curve 9 2, ∀ l, op = GfxOp.forward l → l = 9 / 3 ^ 2) ∧
        netTurn (koch_curve 9 2) = 0) :=
  ⟨by norm_num, koch_curve_counts 9 2 (by norm_num)⟩

/-- C7: a negative recursion level or a non-positive length is rejected
by `draw_koch_snowflake` with the corresponding `ValueError` before any
graphics operation: the guards precede the window and turtle setup, so
the failing call returns an error and issues no operation at all. -/
theorem draw_koch_snowflake_rejects (length : ℚ) (level : Int)
    (h : level < 0 ∨ length ≤ 0) :
    draw_koch_snowflake length level =
      (if level < 0 then Except.error "Recursion level must be non-negative"
       else Except.error "Length must be positive") := by
  by_cases h0 : level < 0
  · rw [draw_koch_snowflake, if_pos h0, if_pos h0]
  · have hl : length ≤ 0 := h.resolve_left h0
    rw [draw_koch_snowflake, if_neg h0, if_pos hl, if_neg h0]

theorem draw_koch_snowflake_rejects_check :
    draw_koch_snowflake 300 (-1) = Except.error "Recursion level must be non-negative" ∧
      draw_koch_snowflake 0 3 = Except.error "Length must be positive" :=
  ⟨draw_koch_snowflake_rejects 300 (-1) (Or.inl (by decide)),
   draw_koch_snowflake_rejects 0 3 (Or.inr (by norm_num))⟩

end Koch

namespace FileCopier

theorem char_toNat_ofNat_valid (n : Nat) (h : n < 55296) : (Char.ofNat n).toNat = n := by
  have hv : n.isValidChar := Or.inl h
  rw [Char.ofNat, dif_pos hv]
  simp [Char.ofNatAux, Char.toNat, UInt32.toNat]

theorem char_toLower_of_not_upper (c : Char) (h : ¬(c.toNat ≥ 65 ∧ c.toNat ≤ 90)) :
    c.toLower = c := by
  unfold Char.toLower
  rw [if_neg h]

theorem char_toLower_toLower (c : Char) : c.toLower.toLower = c.toLower := by
  by_cases h : c.toNat ≥ 65 ∧ c.toNat ≤ 90
  · have hc : c.toLower = Char.ofNat (c.toNat + 32) := by
      unfold Char.toLower
      rw [if_pos h]
    have ht : (Char.ofNat (c.toNat + 32)).toNat = c.toNat + 32 :=
      char_toNat_ofNat_valid _ (by omega)
    rw [hc]
    apply char_toLower_of_not_upper
    rw [ht]
    omega
  · rw [char_toLower_of_not_upper c h, char_toLower_of_not_upper c h]

theorem char_toLower_ne_dot (c : Char) (h : c ≠ '.') : c.toLower ≠ '.' := by
  by_cases hu : c.toNat ≥ 65 ∧ c.toNat ≤ 90
  · have hc : c.toLower = Char.ofNat (c.toNat + 32) := by
      unfold Char.toLower
      rw [if_pos hu]
    have ht : (Char.ofNat (c.toNat + 32)).toNat = c.toNat + 32 :=
      char_toNat_ofNat_valid _ (by omega)
    intro hdot
    rw [hc] at hdot
    have h46 : c.toNat + 32 = 46 := by
      have := congrArg Char.toNat hdot
      rw [ht] at this
      simpa using this
    omega
  · rw [char_toLower_of_not_upper c hu]
    exact h

theorem rfindDot_none : ∀ {cs : List Char}, rfindDot cs = none → ∀ c ∈ cs, c ≠ '.' := by
  intro cs
  induction cs with
  | nil => intro _ c hc; simp at hc
  | cons a cs ih =>
    intro h c hc
    rw [rfindDot] at h
    cases htl : rfindDot cs with
    | some i => rw [htl] at h; simp at h
    | none =>
      rw [htl] at h
      by_cases ha : a = '.'
      · rw [if_pos ha] at h; simp at h
      · rcases List.mem_cons.mp hc with rfl | hc
        · exact ha
        · exact ih htl c hc

theorem rfindDot_spec : ∀ {cs : List Char} {i : Nat}, rfindDot cs = some i →
    i < cs.length ∧ cs.getD i ' ' = '.' ∧ ∀ c ∈ cs.drop (i + 1), c ≠ '.' := by
  intro cs
  induction cs with
  | nil => intro i h; simp [rfindDot] at h
  | cons a cs ih =>
    intro i h
    rw [rfindDot] at h
    cases htl : rfindDot cs with
    | some j =>
      rw [htl] at h
      cases h
      obtain ⟨h1, h2, h3⟩ := ih htl
      refine ⟨by simp; omega, by simpa using h2, ?_⟩
      intro c hc
      exact h3 c (by simpa using hc)
    | none =>
      rw [htl] at h
      by_cases ha : a = '.'
      · rw [if_pos ha] at h
        cases h
        refine ⟨by simp, by simpa using ha, ?_⟩
        intro c hc
        exact rfindDot_none htl c (by simpa using hc)
      · rw [if_neg ha] at h
        simp at h

theorem rfindDot_getLast_dot : ∀ {cs : List Char}, cs.getLast? = some '.' →
    rfindDot cs = some (cs.length - 1) := by
  intro cs
  induction cs with
  | nil => intro h; simp at h
  | cons a cs ih =>
    intro h
    cases cs with
    | nil =>
      simp only [List.getLast?_singleton, Option.some.injEq] at h
      subst h
      rfl
    | cons b cs' =>
      have htl : (b :: cs').getLast? = some '.' := by
        rw [← h, List.getLast?_cons_cons]
      have := ih htl
      rw [rfindDot, this]
      simp

theorem dropWhile_dot_eq_self (l : List Char) (h : ∀ c ∈ l, c ≠ '.') :
    l.dropWhile (· = '.') = l := by
  cases l with
  | nil => rfl
  | cons a l =>
    have ha : ¬ (a = '.') := h a (List.mem_cons_self a l)
    simp [List.dropWhile_cons, ha]

theorem string_mk_ne_empty (l : List Char) (h : l ≠ []) : String.mk l ≠ "" := by
  intro he
  have := congrArg String.data he
  simp at this
  exact h this

theorem pySuffix_cases (name : String) :
    pySuffix name = "" ∨
      ∃ rest : List Char, pySuffix name = String.mk ('.' :: rest) ∧ rest ≠ [] ∧
        ∀ c ∈ rest, c ≠ '.' := by
  unfold pySuffix
  cases h : rfindDot name.data with
  | none => left; rfl
  | some i =>
    dsimp only
    by_cases hc : 0 < i ∧ i < name.data.length - 1
    · right
      obtain ⟨hlt, hdot, hrest⟩ := rfindDot_spec h
      have hgot : name.data[i] = '.' := by
        have := hdot
        rwa [List.getD_eq_getElem?_getD, List.getElem?_eq_getElem hlt, Option.getD_some] at this
      refine ⟨name.data.drop (i + 1), ?_, ?_, hrest⟩
      · rw [if_pos hc, List.drop_eq_getElem_cons hlt, hgot]
      · have : i + 1 < name.data.length := by omega
        intro hnil
        rw [List.drop_eq_nil_iff] at hnil
        omega
    · left
      rw [if_neg hc]

theorem pySuffix_eq_empty_of_getLast_dot (name : String)
    (h : name.data.getLast? = some '.') : pySuffix name = "" := by
  unfold pySuffix
  rw [rfindDot_getLast_dot h]
  have hlen : name.data.length ≠ 0 := by
    intro h0
    rw [List.length_eq_zero] at h0
    rw [h0] at h
    simp at h
  dsimp only
  rw [if_neg]
  intro hcon
  omega

theorem get_file_extension_of_suffix_empty (name : String) (h : pySuffix name = "") :
    get_file_extension name = "no_extension" := by
  rw [get_file_extension, h]
  rfl

/-- C10: for every file name, `get_file_extension` returns a non-empty
string with no dot character that is a fixed point of lowercasing, and
returns the sentinel `'no_extension'` whenever the name has no pathlib
suffix — including names that end in a dot.  The bucket directory name is
therefore always a well-formed single path component. -/
theorem get_file_extension_wellformed (name : String) :
    get_file_extension name ≠ "" ∧
      (∀ c ∈ (get_file_extension name).data, c ≠ '.') ∧
      pyLower (get_file_extension name) = get_file_extension name ∧
      (pySuffix name = "" → get_file_extension name = "no_extension") ∧
      (name.data.getLast? = some '.' → get_file_extension name = "no_extension") := by
  refine ⟨?_, ?_, ?_, get_file_extension_of_suffix_empty name,
    fun hdot => get_file_extension_of_suffix_empty name
      (pySuffix_eq_empty_of_getLast_dot name hdot)⟩ <;>
    rcases pySuffix_cases name with hsuf | ⟨rest, hsuf, hne, hnd⟩
  · rw [get_file_extension_of_suffix_empty name hsuf]
    decide
  · have hstrip : lstripDots (pySuffix name) = String.mk rest := by
      rw [hsuf, lstripDots]
      show String.mk (List.dropWhile (· = '.') ('.' :: rest)) = String.mk rest
      rw [List.dropWhile_cons]
      simp [dropWhile_dot_eq_self rest hnd]
    rw [get_file_extension, hstrip, if_pos (string_mk_ne_empty rest hne)]
    apply string_mk_ne_empty
    simp [pyLower]
    exact hne
  · rw [get_file_extension_of_suffix_empty name hsuf]
    decide
  · have hstrip : lstripDots (pySuffix name) = String.mk rest := by
      rw [hsuf, lstripDots]
      show String.mk (List.dropWhile (· = '.') ('.' :: rest)) = String.mk rest
      rw [List.dropWhile_cons]
      simp [dropWhile_dot_eq_self rest hnd]
    rw [get_file_extension, hstrip, if_pos (string_mk_ne_empty rest hne)]
    intro c hc
    simp only [pyLower, List.mem_map] at hc
    obtain ⟨c', hc', rfl⟩ := hc
    exact char_toLower_ne_dot c' (hnd c' hc')
  · rw [get_file_extension_of_suffix_empty name hsuf]
    decide
  · have hstrip : lstripDots (pySuffix name) = String.mk rest := by
      rw [hsuf, lstripDots]
      show String.mk (List.dropWhile (· = '.') ('.' :: rest)) = String.mk rest
      rw [List.dropWhile_cons]
      simp [dropWhile_dot_eq_self rest hnd]
    rw [get_file_extension, hstrip, if_pos (string_mk_ne_empty rest hne)]
    show String.mk ((rest.map Char.toLower).map Char.toLower) = String.mk (rest.map Char.toLower)
    rw [List.map_map]
    congr 1
    apply List.map_congr_left
    intro c _
    exact char_toLower_toLower c

theorem get_file_extension_wellformed_check :
    get_file_extension "b.TXT" ≠ "" ∧
      (∀ c ∈ (get_file_extension "b.TXT").data, c ≠ '.') ∧
      pyLower (get_file_extension "b.TXT") = get_file_extension "b.TXT" ∧
      (pySuffix "b.TXT" = "" → get_file_extension "b.TXT" = "no_extension") ∧
      (("b.TXT" : String).data.getLast? = some '.' →
        get_file_extension "b.TXT" = "no_extension") :=
  get_file_extension_wellformed "b.TXT"

/-- C9: the extension of `archive.tar.gz` is `gz` (only the component
after the last dot counts) and `.gitignore` gets the sentinel
`no_extension` (a leading-dot name has no suffix in pathlib). -/
theorem get_file_extension_concrete :
    get_file_extension "archive.tar.gz" = "gz" ∧
      get_file_extension ".gitignore" = "no_extension" := by
  constructor <;> decide

/-- Amended C8: copying a directory holding `a.txt`, `b.TXT` and
`README` into an empty destination produces `txt/a.txt`, `txt/b.TXT` and
`no_extension/README` — the bucket directory is the lowercased
extension, but the copied file keeps its original name (case preserved),
and no collision renaming occurs. -/
theorem copy_three_files_result :
    process_directory_recursive
        [FsItem.file "a.txt", FsItem.file "b.TXT", FsItem.file "README"] [] =
      [("txt", "a.txt"), ("txt", "b.TXT"), ("no_extension", "README")] := by
  simp only [process_directory_recursive]
  decide

/-- The C8 claim as stated is false on the code: the produced bucket
`txt` holds `b.TXT`, not `b.txt` nor any collision-renamed `b_k.txt`
variant, because `copy_file_to_destination` uses the original
`file_path.name` unchanged and only lowercases the bucket directory. -/
theorem copy_three_files_no_lowercased_name :
    ("txt", "b.txt") ∉ process_directory_recursive
        [FsItem.file "a.txt", FsItem.file "b.TXT", FsItem.file "README"] [] ∧
      ("txt", "b_1.txt") ∉ process_directory_recursive
        [FsItem.file "a.txt", FsItem.file "b.TXT", FsItem.file "README"] [] ∧
      ("txt", "b_2.txt") ∉ process_directory_recursive
        [FsItem.file "a.txt", FsItem.file "b.TXT", FsItem.file "README"] [] ∧
      ("txt", "b.TXT") ∈ process_directory_recursive
        [FsItem.file "a.txt", FsItem.file "b.TXT", FsItem.file "README"] [] := by
  simp only [process_directory_recursive]
  decide

end FileCopier
